import Mathlib

/-!
Verification of `src/chemopt/zmat_optimisation.py` (RubenStaub/chemopt).

The module is shallowly embedded below.  Conventions:

* Python floats are modelled as exact rationals `ℚ`.
* Fallible Python code is modelled with `Except PyErr`; a Python `raise`
  becomes `Except.error`.  A Python expression that reads a name which is
  not defined anywhere in the module (the module has several, e.g. `C_rad`,
  `next_step`, `calculated`) is modelled as `Except.error (.nameError _)`,
  which is exactly what CPython does at call time.
* `numpy` arrays are modelled as lists (or, for the 4-index Jacobian
  contraction, as index functions materialised into a list matrix).
* The filesystem touched by `rename_existing` is modelled as a list of
  existing nodes; each node is a path (the component list produced by
  `normpath(filepath).split(os.path.sep)`) together with a content
  identifier, used to express that no file content is ever lost.
-/

namespace Chemopt

/-- Python exceptions raised by the embedded fragments. -/
inductive PyErr : Type
  | valueError (msg : String)
  | nameError (name : String)
  | indexError (msg : String)
  | typeError (msg : String)
  deriving DecidableEq

deriving instance DecidableEq for Except

/-! ### Convergence checker: `_is_converged` (lines 223-242)

```python
def _is_converged(energies, grad_energy_X, etol=1e-8, gtol=1e-5):
    if len(energies) == 0:
        return False
    elif len(energies) == 1:
        return False
    else:
        return (abs(energies[-1] - energies[-2]) < etol and
                abs(grad_energy_X).max() < gtol)
```

`grad_energy_X` may be `None` (the driver's first check); `abs(None)`
raises `TypeError`.  `numpy.max` on an empty array raises `ValueError`.
Python `and` short-circuits, so the gradient expression is only evaluated
when the energy condition holds. -/

/-- Default value of the `etol` keyword argument (`1e-8`). -/
def default_etol : ℚ := 1 / 10 ^ 8

/-- Default value of the `gtol` keyword argument (`1e-5`). -/
def default_gtol : ℚ := 1 / 10 ^ 5

/-- `abs(a).max()` for a numpy array `a`, modelled on the flat list of
entries: maximum of the absolute values, `ValueError` on an empty array. -/
def npAbsMax (g : List ℚ) : Except PyErr ℚ :=
  match g with
  | [] => .error (.valueError "zero-size array to reduction operation maximum")
  | x :: xs => .ok (xs.foldl (fun m y => max m |y|) |x|)

/-- `_is_converged` (source lines 223-242). -/
def is_converged (energies : List ℚ) (grad_energy_X : Option (List ℚ))
    (etol gtol : ℚ) : Except PyErr Bool :=
  if energies.length = 0 then .ok false
  else if energies.length = 1 then .ok false
  else
    if |energies.getD (energies.length - 1) 0 - energies.getD (energies.length - 2) 0| < etol then
      match grad_energy_X with
      | none => .error (.typeError "bad operand type for abs(): NoneType")
      | some g => (npAbsMax g).map (fun m => decide (m < gtol))
    else .ok false

/-! ### Step generator guard: `get_next_step` (lines 245-289)

```python
def get_next_step(grads_energy_C):
    if len(grads_energy_C) != 2:
        raise ValueError('Only deques of length 2 allowed')
    return next_step
```

The guard is the first statement, so no computation happens before it.
`next_step` is not defined anywhere in the module, so a call that passes
the guard raises `NameError` when the return expression is evaluated. -/
def get_next_step (grads_energy_C : List (List ℚ)) : Except PyErr (List ℚ) :=
  if grads_energy_C.length ≠ 2 then .error (.valueError "Only deques of length 2 allowed")
  else .error (.nameError "next_step")

/-! ### Coordinate transform inside `_get_V_function` (lines 77-93)

```python
grad_X = zmolecule.get_grad_cartesian(as_function=False, drop_auto_dummies=True)
grad_energy_C = np.sum(grad_energy_X.T[:, :, None, None] * grad_X, axis=(0, 1))
for i in range(min(3, grad_energy_C.shape[0])):
    grad_energy_C[i, i:] = 0.
```

`grad_energy_X` is the Cartesian gradient, an `nX × 3` array indexed by
(atom, component); `grad_X` is the `3 × nX × m × 3` Jacobian, `m` the number
of Z-matrix atoms.  The broadcast product is summed over the first two axes,
yielding an `m × 3` internal-gradient matrix whose rows are atoms and whose
columns are the bond/angle/dihedral components; the loop then zeroes the
positions `[i, i:]` of the first `min 3 m` rows in place. -/

/-- Entry `(a, b)` of the Jacobian contraction
`np.sum(grad_energy_X.T[:, :, None, None] * grad_X, axis=(0, 1))`. -/
def grad_energy_C_entry (nX : ℕ) (grad_energy_X : ℕ → ℕ → ℚ)
    (grad_X : ℕ → ℕ → ℕ → ℕ → ℚ) (a b : ℕ) : ℚ :=
  ∑ i ∈ Finset.range 3, ∑ j ∈ Finset.range nX, grad_energy_X j i * grad_X i j a b

/-- The in-place gauge fix
`for i in range(min(3, grad_energy_C.shape[0])): grad_energy_C[i, i:] = 0.`,
viewed as a function on the entries of a matrix with `m` rows. -/
def gauge_fix (m : ℕ) (C : ℕ → ℕ → ℚ) (a b : ℕ) : ℚ :=
  if a < min 3 m ∧ a ≤ b then 0 else C a b

/-- Materialise an index function as a `rows × cols` list matrix (the shape
of the numpy array). -/
def matToList (rows cols : ℕ) (M : ℕ → ℕ → ℚ) : List (List ℚ) :=
  (List.range rows).map fun a => (List.range cols).map fun b => M a b

/-- The internal gradient `grad_energy_C` returned by the function that
`_get_V_function` builds: the Jacobian contraction followed by the in-place
gauge fix; an `m × 3` matrix. -/
def coordinate_transform (nX m : ℕ) (grad_energy_X : ℕ → ℕ → ℚ)
    (grad_X : ℕ → ℕ → ℕ → ℕ → ℚ) : List (List ℚ) :=
  matToList m 3 (gauge_fix m (grad_energy_C_entry nX grad_energy_X grad_X))

/-! ### Driver initialisation in `optimise` (lines 53-64)

```python
energies, structures, grads_energy_C = [], [], deque([])
...
while not _is_converged(energies, grad_energy_X):
    new_zm = get_new_zm(grads_energy_C)
    ...
    grads_energy_C.popleft()
    grads_energy_C.append(grad_energy_C)
```
-/

/-- The driver's initial gradient history, `grads_energy_C = deque([])`
(line 53): an empty deque. -/
def initial_gradient_history : List (List ℚ) := []

/-- `deque.popleft()`: removes and returns the leftmost element; raises
`IndexError` on an empty deque. -/
def popleft (d : List (List ℚ)) : Except PyErr (List ℚ × List (List ℚ)) :=
  match d with
  | [] => .error (.indexError "pop from an empty deque")
  | x :: xs => .ok (x, xs)

/-! ### Step application: `_get_new_zm_f_generator` (lines 96-105)

```python
def _get_new_zm_f_generator(zmolecule):
    def get_new_zm(p, previous_zmat):
        C_deg = C_rad.copy().reshape((3, len(C_rad) // 3), order='F').T
        C_deg[:, [1, 2]] = np.rad2deg(C_deg[:, [1, 2]])
        new_zm = previous_zmat.copy()
        zmat_values = ['bond', 'angle', 'dihedral']
        new_zm.safe_loc[zmolecule.index, zmat_values] = C_deg
        return new_zm
    return get_new_zm
```

The first statement of the body reads `C_rad`, a name that is defined
nowhere in the module nor in the enclosing scopes, so in Python every call
raises `NameError` before `previous_zmat` is even read (and, as written, the
assignment would target `zmolecule.index`, i.e. all atoms, with absolute
values rather than adding a displacement to atoms from index 3 onward). -/

/-- A Z-matrix snapshot: one (bond, angle, dihedral) value triple per atom. -/
structure Zmat where
  rows : List (ℚ × ℚ × ℚ)
  deriving DecidableEq

/-- `get_new_zm(p, previous_zmat)` as produced by
`_get_new_zm_f_generator(zmolecule)`. -/
def get_new_zm (zmolecule : Zmat) (p : List ℚ) (previous_zmat : Zmat) :
    Except PyErr Zmat :=
  .error (.nameError "C_rad")

/-! ### Output-path collision avoidance: `rename_existing` (lines 176-188)

```python
def rename_existing(filepath):
    if os.path.exists(filepath):
        to_be_moved = normpath(filepath).split(os.path.sep)[0]
        get_path = (to_be_moved + '_{}').format
        found = False
        end = 1
        while not found:
            if not os.path.exists(get_path(end)):
                found = True
            end += 1
        for i in range(end - 1, 1, -1):
            os.rename(get_path(i - 1), get_path(i))
        os.rename(to_be_moved, get_path(1))
```

`to_be_moved` is the FIRST component of the normalised path, not the whole
path.  After the `while` loop, `end` is (first free suffix) + 1, so the
`for` loop runs `i` over first-free, first-free − 1, ..., 2, renaming
suffix `i - 1` to suffix `i`, largest first. -/

/-- A filesystem path: the component list
`normpath(filepath).split(os.path.sep)`. -/
abbrev FsPath := List String

/-- A filesystem: the list of existing nodes (files and directories), each
carrying a content identifier, so that loss of content is observable. -/
abbrev Fs := List (FsPath × ℕ)

/-- `os.path.exists`. -/
def pathExists (fs : Fs) (p : FsPath) : Bool :=
  fs.any fun e => decide (e.1 = p)

/-- `os.rename(src, dst)`: every node whose path lies under `src` is moved
under `dst`; a node previously under `dst` is silently replaced. -/
def osRename (fs : Fs) (src dst : FsPath) : Fs :=
  fs.filterMap fun e =>
    if src <+: e.1 then some (dst ++ e.1.drop src.length, e.2)
    else if dst <+: e.1 then none
    else some e

/-- `get_path(k)`, i.e. `(to_be_moved + '_{}').format(k)`. -/
def get_path (to_be_moved : String) (k : ℕ) : String :=
  to_be_moved ++ "_" ++ Nat.repr k

/-- The `while not found` search of `rename_existing`, with explicit fuel:
starting at suffix `k`, the first `k' ≥ k` with `get_path k'` free.  The
source loop is unbounded; `findFree_always_succeeds` below shows the fuel
`fs.length + 1` used in `rename_existing` suffices on every input, so the
fuelled function coincides with the unbounded loop. -/
def findFreeFrom (fs : Fs) (to_be_moved : String) : ℕ → ℕ → Option ℕ
  | 0, _ => none
  | fuel + 1, k =>
    if pathExists fs [get_path to_be_moved k] then
      findFreeFrom fs to_be_moved fuel (k + 1)
    else some k

/-- `for i in range(end - 1, 1, -1): os.rename(get_path(i - 1), get_path(i))`,
entered at the loop's start value `i = end - 1` (the first free suffix). -/
def shiftBackups (to_be_moved : String) (fs : Fs) : ℕ → Fs
  | 0 => fs
  | 1 => fs
  | i + 2 =>
    shiftBackups to_be_moved
      (osRename fs [get_path to_be_moved (i + 1)] [get_path to_be_moved (i + 2)]) (i + 1)

/-- `rename_existing` (lines 176-188). -/
def rename_existing (fs : Fs) (filepath : FsPath) : Fs :=
  if pathExists fs filepath then
    let to_be_moved := filepath.headI
    match findFreeFrom fs to_be_moved (fs.length + 1) 1 with
    | none => fs
    | some e =>
        osRename (shiftBackups to_be_moved fs e) [to_be_moved] [get_path to_be_moved 1]
  else fs

/-- Real-filesystem wellformedness used by the rotation theorem: every
nonempty prefix of a stored path is itself a stored node (directories
exist).  Stated over `List.inits` so that it is decidable on concrete
filesystems. -/
def prefixClosed (fs : Fs) : Prop :=
  ∀ e ∈ fs, ∀ p ∈ e.1.inits, p ≠ [] → ∃ c ∈ fs, c.1 = p

/-- No stored node lies at or under the single-component path `[x]`. -/
def noPref (fs : Fs) (x : String) : Prop :=
  ∀ e ∈ fs, ¬ [x] <+: e.1

/-- Concrete filesystem fixture: a report `r` plus ten numbered backups
`r_1`, ..., `r_10`. -/
def backupsTen : Fs :=
  (["r"], 0) :: (List.range 10).map fun i => ([get_path "r" (i + 1)], i + 1)

/-- Claim C1: with fewer than two recorded energies `_is_converged` returns
`False` whatever the gradient argument is; with at least two energies (and a
nonempty gradient array) it returns `True` iff both
`|energies[-1] - energies[-2]| < etol` and `abs(grad).max() < gtol` hold, both
comparisons strict (a delta exactly at `etol`, or a gradient maximum exactly at
`gtol`, is not converged), and the defaults are `etol = 1e-8`, `gtol = 1e-5`. -/
theorem is_converged_spec :
    (∀ (energies : List ℚ) (g : Option (List ℚ)) (etol gtol : ℚ),
        energies.length < 2 → is_converged energies g etol gtol = .ok false) ∧
    (∀ (energies : List ℚ) (x : ℚ) (xs : List ℚ) (etol gtol : ℚ),
        2 ≤ energies.length →
        is_converged energies (some (x :: xs)) etol gtol =
          .ok (decide (|energies.getD (energies.length - 1) 0 -
                energies.getD (energies.length - 2) 0| < etol)
              && decide (xs.foldl (fun m y => max m |y|) |x| < gtol))) ∧
    (∀ (energies : List ℚ) (g : Option (List ℚ)) (etol gtol : ℚ),
        2 ≤ energies.length →
        |energies.getD (energies.length - 1) 0 -
            energies.getD (energies.length - 2) 0| = etol →
        is_converged energies g etol gtol = .ok false) ∧
    (∀ (energies : List ℚ) (x : ℚ) (xs : List ℚ) (etol gtol : ℚ),
        2 ≤ energies.length →
        xs.foldl (fun m y => max m |y|) |x| = gtol →
        is_converged energies (some (x :: xs)) etol gtol = .ok false) ∧
    default_etol = 1 / 10 ^ 8 ∧ default_gtol = 1 / 10 ^ 5 := by
  refine ⟨?_, ?_, ?_, ?_, rfl, rfl⟩
  · intro energies g etol gtol h
    have h' : energies.length = 0 ∨ energies.length = 1 := by omega
    rcases h' with h' | h' <;> simp [is_converged, h']
  · intro energies x xs etol gtol h
    have h0 : ¬ energies.length = 0 := by omega
    have h1 : ¬ energies.length = 1 := by omega
    unfold is_converged
    rw [if_neg h0, if_neg h1]
    by_cases hd : |energies.getD (energies.length - 1) 0 -
        energies.getD (energies.length - 2) 0| < etol
    · rw [if_pos hd, decide_eq_true hd, Bool.true_and]
      rfl
    · rw [if_neg hd, decide_eq_false hd, Bool.false_and]
  · intro energies g etol gtol h hb
    have h0 : ¬ energies.length = 0 := by omega
    have h1 : ¬ energies.length = 1 := by omega
    have hd : ¬ |energies.getD (energies.length - 1) 0 -
        energies.getD (energies.length - 2) 0| < etol := by rw [hb]; exact lt_irrefl _
    unfold is_converged
    rw [if_neg h0, if_neg h1, if_neg hd]
  · intro energies x xs etol gtol h hb
    have h0 : ¬ energies.length = 0 := by omega
    have h1 : ¬ energies.length = 1 := by omega
    unfold is_converged
    rw [if_neg h0, if_neg h1]
    by_cases hd : |energies.getD (energies.length - 1) 0 -
        energies.getD (energies.length - 2) 0| < etol
    · rw [if_pos hd]
      show Except.ok (decide (xs.foldl (fun m y => max m |y|) |x| < gtol)) = .ok false
      rw [hb, decide_eq_false (lt_irrefl gtol)]
    · rw [if_neg hd]

/-- Witness for C1: each hypothesis of `is_converged_spec` discharged at a
concrete input (one energy; two equal energies with a tiny gradient; a delta
exactly at `etol`; a gradient maximum exactly at `gtol`). -/
theorem is_converged_spec_witness :
    (([(3:ℚ)] : List ℚ).length < 2 ∧ is_converged [(3:ℚ)] none 1 1 = .ok false) ∧
    (2 ≤ ([(3:ℚ), 3] : List ℚ).length ∧
      is_converged [(3:ℚ), 3] (some [0]) default_etol default_gtol = .ok true) ∧
    (2 ≤ ([(0:ℚ), 1] : List ℚ).length ∧
      |([(0:ℚ), 1] : List ℚ).getD (([(0:ℚ), 1] : List ℚ).length - 1) 0 -
        ([(0:ℚ), 1] : List ℚ).getD (([(0:ℚ), 1] : List ℚ).length - 2) 0| = 1 ∧
      is_converged [(0:ℚ), 1] (some [0]) 1 1 = .ok false) ∧
    (2 ≤ ([(3:ℚ), 3] : List ℚ).length ∧
      ([] : List ℚ).foldl (fun m y => max m |y|) |(2:ℚ)| = 2 ∧
      is_converged [(3:ℚ), 3] (some [2]) 1 2 = .ok false) := by
  refine ⟨⟨by decide, is_converged_spec.1 [3] none 1 1 (by decide)⟩,
          ⟨by decide, (is_converged_spec.2.1 [3, 3] 0 [] default_etol default_gtol
              (by decide)).trans (by norm_num [default_etol, default_gtol])⟩,
          ⟨by decide, by norm_num,
            is_converged_spec.2.2.1 [0, 1] (some [0]) 1 1 (by decide) (by norm_num)⟩,
          ⟨by decide, by norm_num,
            is_converged_spec.2.2.2.1 [3, 3] 2 [] 1 2 (by decide) (by norm_num)⟩⟩

/-- Claim C3: `get_next_step` invoked with a history whose length is not 2
(e.g. 0, 1, 3) fails with the history-length `ValueError` (the spec's
`InvalidHistoryLength`), raised before any computation; with a two-element
history that error is not raised. -/
theorem get_next_step_history_guard :
    (∀ g : List (List ℚ), g.length ≠ 2 →
        get_next_step g = .error (.valueError "Only deques of length 2 allowed")) ∧
    (∀ g : List (List ℚ), g.length = 2 →
        get_next_step g ≠ .error (.valueError "Only deques of length 2 allowed")) := by
  constructor
  · intro g h
    simp [get_next_step, h]
  · intro g h
    simp [get_next_step, h]

/-- Witness for C3: the guard outcome at histories of length 0, 1, 3 and 2. -/
theorem get_next_step_history_guard_witness :
    (([] : List (List ℚ)).length ≠ 2 ∧
      get_next_step [] = .error (.valueError "Only deques of length 2 allowed")) ∧
    (([[(1:ℚ)]] : List (List ℚ)).length ≠ 2 ∧
      get_next_step [[(1:ℚ)]] = .error (.valueError "Only deques of length 2 allowed")) ∧
    (([[], [], []] : List (List ℚ)).length ≠ 2 ∧
      get_next_step [[], [], []] = .error (.valueError "Only deques of length 2 allowed")) ∧
    (([[], []] : List (List ℚ)).length = 2 ∧
      get_next_step [[], []] ≠ .error (.valueError "Only deques of length 2 allowed")) :=
  ⟨⟨by decide, get_next_step_history_guard.1 [] (by decide)⟩,
   ⟨by decide, get_next_step_history_guard.1 [[(1:ℚ)]] (by decide)⟩,
   ⟨by decide, get_next_step_history_guard.1 [[], [], []] (by decide)⟩,
   ⟨by decide, get_next_step_history_guard.2 [[], []] (by decide)⟩⟩

/-- Claim C10: with fewer than two recorded energies `_is_converged` never
evaluates its gradient argument, so the driver's first convergence check,
which passes `grad_energy_X = None`, is well defined and returns `False`
(no `TypeError` from `abs(None)`). -/
theorem is_converged_none_gradient_safe (energies : List ℚ) (etol gtol : ℚ)
    (h : energies.length < 2) :
    is_converged energies none etol gtol = .ok false := by
  have h' : energies.length = 0 ∨ energies.length = 1 := by omega
  rcases h' with h' | h' <;> simp [is_converged, h']

/-- Witness for C10: the empty energy history with an absent gradient. -/
theorem is_converged_none_gradient_safe_witness :
    ([] : List ℚ).length < 2 ∧
      is_converged [] none default_etol default_gtol = .ok false :=
  ⟨by decide, is_converged_none_gradient_safe [] default_etol default_gtol (by decide)⟩

/-- Claim C2 (code bug in the driver): `optimise` initialises the gradient
history as an EMPTY deque (`deque([])`, line 53), not pre-seeded with two
zero vectors, so on the first pass through the loop body the history holds
zero entries at step-generation time — not two — and the loop's
`grads_energy_C.popleft()` raises `IndexError`. -/
theorem initial_history_empty_violates_invariant :
    initial_gradient_history.length = 0 ∧
    initial_gradient_history.length ≠ 2 ∧
    popleft initial_gradient_history = .error (.indexError "pop from an empty deque") :=
  ⟨rfl, by decide, rfl⟩

lemma matToList_entry (rows cols : ℕ) (M : ℕ → ℕ → ℚ) (a b : ℕ)
    (ha : a < rows) (hb : b < cols) :
    ((matToList rows cols M).getD a []).getD b 1 = M a b := by
  unfold matToList
  have h1 : ((List.range rows).map fun a => (List.range cols).map fun b => M a b).getD a [] =
      (List.range cols).map fun b => M a b := by
    rw [List.getD_eq_getElem?_getD, List.getElem?_map, List.getElem?_range ha]
    rfl
  rw [h1, List.getD_eq_getElem?_getD, List.getElem?_map, List.getElem?_range hb]
  rfl

/-- Claim C4: every entry of the internal gradient at matrix position
`[i, i:]` with atom index `i < 3` (and `i < m`, `i ≤ b < 3`) is exactly
zero after the gauge fix, for every Cartesian gradient and Jacobian. -/
theorem gauge_block_zero (nX m : ℕ) (gX : ℕ → ℕ → ℚ) (J : ℕ → ℕ → ℕ → ℕ → ℚ)
    (a b : ℕ) (ha3 : a < 3) (ham : a < m) (hab : a ≤ b) (hb3 : b < 3) :
    ((coordinate_transform nX m gX J).getD a []).getD b 1 = 0 := by
  rw [coordinate_transform, matToList_entry m 3 _ a b ham hb3, gauge_fix,
    if_pos ⟨by omega, hab⟩]

/-- Witness for C4: a concrete two-atom system, entry `[0, 1]`. -/
theorem gauge_block_zero_witness :
    ((0 : ℕ) < 3 ∧ (0 : ℕ) < 2 ∧ (0 : ℕ) ≤ 1 ∧ (1 : ℕ) < 3) ∧
    ((coordinate_transform 4 2 (fun j i => (j : ℚ) + i)
        (fun i j a b => (i : ℚ) * j + a + b)).getD 0 []).getD 1 1 = 0 :=
  ⟨by decide, gauge_block_zero 4 2 (fun j i => (j : ℚ) + i)
      (fun i j a b => (i : ℚ) * j + a + b) 0 1
      (by decide) (by decide) (by decide) (by decide)⟩

/-- Claim C5 (code bug): applying the step output never yields a structure
snapshot at all — every call of `get_new_zm` raises `NameError` on the
undefined name `C_rad` before reading `previous_zmat`, so no new structure
with only atoms 3+ displaced is ever produced. -/
theorem get_new_zm_never_returns_structure (zmolecule : Zmat) (p : List ℚ)
    (previous_zmat : Zmat) :
    ¬ ∃ zm : Zmat, get_new_zm zmolecule p previous_zmat = .ok zm := by
  rintro ⟨zm, h⟩
  simp [get_new_zm] at h

lemma matToList_length (rows cols : ℕ) (M : ℕ → ℕ → ℚ) :
    (matToList rows cols M).length = rows := by
  simp [matToList]

lemma matToList_flatten_length (rows cols : ℕ) (M : ℕ → ℕ → ℚ) :
    (matToList rows cols M).flatten.length = rows * cols := by
  simp [matToList, List.length_flatten, List.map_map, Function.comp_def,
    List.map_const', List.sum_replicate, smul_eq_mul]

/-- Claim C8 counterexample: for 4 atoms the transform's output is a 4-row
matrix with 3 · 4 = 12 entries in total, not 3 · 4 − 6 = 6 (the gauge-fixed
entries are zeroed in place, never removed). -/
theorem coordinate_transform_length_counterexample :
    (coordinate_transform 4 4 (fun _ _ => 1) fun _ _ _ _ => 1).flatten.length = 12 ∧
    (coordinate_transform 4 4 (fun _ _ => 1) fun _ _ _ _ => 1).flatten.length ≠ 3 * 4 - 6 ∧
    (coordinate_transform 4 4 (fun _ _ => 1) fun _ _ _ _ => 1).length = 4 ∧
    (coordinate_transform 4 4 (fun _ _ => 1) fun _ _ _ _ => 1).length ≠ 3 * 4 - 6 := by
  rw [coordinate_transform, matToList_flatten_length, matToList_length]
  refine ⟨rfl, by decide, rfl, by decide⟩

/-- Claim C8 as amended: for every valid structure the transform's output is
an `m × 3` matrix — `m` rows (`len()` of the array) and `3 · m` entries in
total; the six gauge-fixed entries are zeroed in place, not dropped. -/
theorem coordinate_transform_shape (nX m : ℕ) (gX : ℕ → ℕ → ℚ)
    (J : ℕ → ℕ → ℕ → ℕ → ℚ) :
    (coordinate_transform nX m gX J).length = m ∧
    (coordinate_transform nX m gX J).flatten.length = 3 * m := by
  rw [coordinate_transform, matToList_flatten_length, matToList_length]
  exact ⟨rfl, Nat.mul_comm m 3⟩

/-- Claim C9 (code bug): the no-op step is not the identity on structures —
applying a zero displacement through the step-application function raises
`NameError` (undefined `C_rad`) instead of returning the structure with its
bond/angle/dihedral values unchanged. -/
theorem zero_step_not_identity :
    get_new_zm ⟨[(1, 90, 120)]⟩ [0, 0, 0] ⟨[(1, 90, 120)]⟩ ≠
      .ok ⟨[(1, 90, 120)]⟩ := by
  simp [get_new_zm]

/-! ### Injectivity of the decimal suffix `Nat.repr`, needed for the
backup-rotation proofs. -/

lemma toDigitsCore_acc (b : ℕ) : ∀ (f n : ℕ) (l : List Char),
    Nat.toDigitsCore b f n l = Nat.toDigitsCore b f n [] ++ l := by
  intro f
  induction f with
  | zero => intro n l; simp [Nat.toDigitsCore]
  | succ f ih =>
    intro n l
    simp only [Nat.toDigitsCore]
    by_cases h : n / b = 0
    · simp [h]
    · simp only [h, if_false]
      rw [ih (n / b) (Nat.digitChar (n % b) :: l), ih (n / b) [Nat.digitChar (n % b)]]
      simp

lemma toDigitsCore_eq_digits : ∀ (n : ℕ), ∀ f, n < f → 0 < n →
    Nat.toDigitsCore 10 f n [] = ((Nat.digits 10 n).map Nat.digitChar).reverse := by
  intro n
  induction n using Nat.strong_induction_on with
  | _ n ih =>
    intro f hf hn
    match f, hf with
    | f + 1, _ =>
      simp only [Nat.toDigitsCore]
      by_cases h : n / 10 = 0
      · rw [if_pos h]
        rw [Nat.digits_def' (by norm_num : (1:ℕ) < 10) hn, h, Nat.digits_zero]
        simp
      · rw [if_neg h]
        rw [toDigitsCore_acc]
        have hlt : n / 10 < n := Nat.div_lt_self hn (by norm_num)
        have hf' : n / 10 < f := by omega
        rw [ih (n / 10) hlt f hf' (Nat.pos_of_ne_zero h)]
        rw [Nat.digits_def' (by norm_num : (1:ℕ) < 10) hn]
        simp

lemma toDigits_eq (n : ℕ) :
    Nat.toDigits 10 n =
      (if n = 0 then [0] else (Nat.digits 10 n).reverse).map Nat.digitChar := by
  by_cases h : n = 0
  · subst h; rfl
  · rw [if_neg h]
    unfold Nat.toDigits
    rw [toDigitsCore_eq_digits n (n + 1) (by omega) (Nat.pos_of_ne_zero h)]
    rw [List.map_reverse]

lemma digitChar_inj : ∀ a < 10, ∀ b < 10, Nat.digitChar a = Nat.digitChar b → a = b := by
  decide

lemma map_digitChar_inj : ∀ (l1 l2 : List ℕ), (∀ x ∈ l1, x < 10) → (∀ x ∈ l2, x < 10) →
    l1.map Nat.digitChar = l2.map Nat.digitChar → l1 = l2 := by
  intro l1
  induction l1 with
  | nil => intro l2 _ _ h; cases l2 <;> simp_all
  | cons a t ih =>
    intro l2 h1 h2 h
    cases l2 with
    | nil => simp_all
    | cons c t2 =>
      simp only [List.map_cons, List.cons.injEq] at h
      have ha := digitChar_inj a (h1 a (by simp)) c (h2 c (by simp)) h.1
      have ht := ih t2 (fun x hx => h1 x (by simp [hx])) (fun x hx => h2 x (by simp [hx])) h.2
      rw [ha, ht]

lemma nat_repr_inj {m n : ℕ} (h : Nat.repr m = Nat.repr n) : m = n := by
  unfold Nat.repr at h
  rw [List.asString_inj] at h
  rw [toDigits_eq, toDigits_eq] at h
  have hm : ∀ x ∈ (if m = 0 then [0] else (Nat.digits 10 m).reverse), x < 10 := by
    split
    · intro x hx; simp at hx; omega
    · intro x hx
      rw [List.mem_reverse] at hx
      exact Nat.digits_lt_base (by norm_num) hx
  have hn : ∀ x ∈ (if n = 0 then [0] else (Nat.digits 10 n).reverse), x < 10 := by
    split
    · intro x hx; simp at hx; omega
    · intro x hx
      rw [List.mem_reverse] at hx
      exact Nat.digits_lt_base (by norm_num) hx
  have h2 := map_digitChar_inj _ _ hm hn h
  by_cases h0 : m = 0 <;> by_cases h1 : n = 0
  · omega
  · exfalso
    rw [if_pos h0, if_neg h1] at h2
    have hd : Nat.digits 10 n = [0] := by
      have := congrArg List.reverse h2
      simpa using this.symm
    have hofd := Nat.ofDigits_digits 10 n
    rw [hd] at hofd
    simp [Nat.ofDigits] at hofd
    omega
  · exfalso
    rw [if_neg h0, if_pos h1] at h2
    have hd : Nat.digits 10 m = [0] := by
      have := congrArg List.reverse h2
      simpa using this
    have hofd := Nat.ofDigits_digits 10 m
    rw [hd] at hofd
    simp [Nat.ofDigits] at hofd
    omega
  · rw [if_neg h0, if_neg h1] at h2
    have hd : Nat.digits 10 m = Nat.digits 10 n := by
      have := congrArg List.reverse h2
      simpa using this
    have := congrArg (Nat.ofDigits 10) hd
    rw [Nat.ofDigits_digits, Nat.ofDigits_digits] at this
    exact_mod_cast this

lemma get_path_inj {s : String} {j k : ℕ} (h : get_path s j = get_path s k) : j = k := by
  unfold get_path at h
  have hd := congrArg String.data h
  simp only [String.data_append, List.append_assoc] at hd
  have h1 := List.append_cancel_left hd
  have h2 := List.append_cancel_left h1
  apply nat_repr_inj (m := j) (n := k)
  have h3 : (Nat.repr j).toList.asString = (Nat.repr k).toList.asString := by
    show (Nat.repr j).data.asString = (Nat.repr k).data.asString
    rw [h2]
  rwa [String.asString_toList, String.asString_toList] at h3

lemma get_path_ne_base (s : String) (k : ℕ) : get_path s k ≠ s := by
  intro h
  have hd := congrArg (fun t : String => t.data.length) h
  simp only [get_path, String.data_append, List.length_append, List.length_cons,
    List.length_nil] at hd
  omega

/-! ### Lemmas about the embedded filesystem operations. -/

lemma singleton_prefix_iff {x : String} {p : FsPath} :
    [x] <+: p ↔ ∃ t, p = x :: t := by
  constructor
  · rintro ⟨t, ht⟩
    exact ⟨t, ht.symm⟩
  · rintro ⟨t, rfl⟩
    exact ⟨t, rfl⟩

lemma singleton_prefix_cons {x y : String} {t : List String}
    (h : [x] <+: y :: t) : x = y := by
  rcases singleton_prefix_iff.mp h with ⟨t', ht⟩
  exact ((List.cons.inj ht).1).symm

lemma pathExists_iff {fs : Fs} {p : FsPath} :
    pathExists fs p = true ↔ ∃ e ∈ fs, e.1 = p := by
  unfold pathExists
  rw [List.any_eq_true]
  constructor
  · rintro ⟨e, he, hd⟩
    exact ⟨e, he, of_decide_eq_true hd⟩
  · rintro ⟨e, he, hd⟩
    exact ⟨e, he, decide_eq_true hd⟩

lemma osRename_mem_untouched {fs : Fs} {src dst : FsPath} {e : FsPath × ℕ}
    (he : e ∈ fs) (hsrc : ¬ src <+: e.1) (hdst : ¬ dst <+: e.1) :
    e ∈ osRename fs src dst := by
  unfold osRename
  rw [List.mem_filterMap]
  exact ⟨e, he, by rw [if_neg hsrc, if_neg hdst]⟩

lemma osRename_mem_moved {fs : Fs} {src dst : FsPath} {c : ℕ}
    (he : (src, c) ∈ fs) : (dst, c) ∈ osRename fs src dst := by
  unfold osRename
  rw [List.mem_filterMap]
  refine ⟨(src, c), he, ?_⟩
  rw [if_pos (List.prefix_refl src)]
  simp

lemma osRename_mem_cases {fs : Fs} {src dst : FsPath} {e : FsPath × ℕ}
    (he : e ∈ osRename fs src dst) :
    (∃ a ∈ fs, src <+: a.1 ∧ e = (dst ++ a.1.drop src.length, a.2)) ∨
      (e ∈ fs ∧ ¬ src <+: e.1 ∧ ¬ dst <+: e.1) := by
  unfold osRename at he
  rw [List.mem_filterMap] at he
  obtain ⟨a, ha, hfa⟩ := he
  by_cases h1 : src <+: a.1
  · rw [if_pos h1] at hfa
    exact Or.inl ⟨a, ha, h1, (Option.some.inj hfa).symm⟩
  · rw [if_neg h1] at hfa
    by_cases h2 : dst <+: a.1
    · rw [if_pos h2] at hfa
      exact absurd hfa (by simp)
    · rw [if_neg h2] at hfa
      obtain rfl := Option.some.inj hfa
      exact Or.inr ⟨ha, h1, h2⟩

lemma filterMap_map_snd : ∀ (fs : Fs) (f : FsPath × ℕ → Option (FsPath × ℕ)),
    (∀ e ∈ fs, ∃ p, f e = some (p, e.2)) →
    (fs.filterMap f).map Prod.snd = fs.map Prod.snd := by
  intro fs f
  induction fs with
  | nil => intro _; rfl
  | cons a t ih =>
    intro h
    obtain ⟨p, hp⟩ := h a (by simp)
    rw [List.filterMap_cons, hp]
    simp only [List.map_cons]
    rw [ih (fun x hx => h x (by simp [hx]))]

lemma osRename_contents (fs : Fs) (src dst : FsPath)
    (h : ∀ e ∈ fs, ¬ dst <+: e.1) :
    (osRename fs src dst).map Prod.snd = fs.map Prod.snd := by
  unfold osRename
  apply filterMap_map_snd
  intro e he
  by_cases h1 : src <+: e.1
  · exact ⟨dst ++ e.1.drop src.length, by rw [if_pos h1]⟩
  · exact ⟨e.1, by rw [if_neg h1, if_neg (h e he)]⟩

lemma osRename_noPref_src {fs : Fs} {a b : String} (hab : a ≠ b) :
    noPref (osRename fs [a] [b]) a := by
  intro e he hpre
  rcases osRename_mem_cases he with ⟨w, _, _, rfl⟩ | ⟨_, hs, _⟩
  · exact hab (singleton_prefix_cons hpre)
  · exact hs hpre

lemma shiftBackups_contents (s : String) : ∀ (v : ℕ) (fs : Fs),
    noPref fs (get_path s v) →
    (shiftBackups s fs v).map Prod.snd = fs.map Prod.snd
  | 0, fs, _ => rfl
  | 1, fs, _ => rfl
  | v + 2, fs, h => by
    rw [shiftBackups]
    rw [shiftBackups_contents s (v + 1) _
      (osRename_noPref_src (fun hh => by have := get_path_inj hh; omega))]
    exact osRename_contents fs _ _ h

lemma shiftBackups_noPref_one (s : String) : ∀ (v : ℕ) (fs : Fs), 2 ≤ v →
    noPref (shiftBackups s fs v) (get_path s 1) := by
  intro v
  induction v using Nat.strong_induction_on with
  | _ v ih =>
    intro fs hv
    obtain ⟨w, rfl⟩ : ∃ w, v = w + 2 := ⟨v - 2, by omega⟩
    rcases Nat.eq_zero_or_pos w with rfl | hw
    · rw [shiftBackups, shiftBackups]
      exact osRename_noPref_src (fun hh => by have := get_path_inj hh; omega)
    · rw [shiftBackups]
      exact ih (w + 1) (by omega) _ (by omega)

lemma shiftBackups_mem_untouched (s : String) : ∀ (v : ℕ) (fs : Fs) (e : FsPath × ℕ),
    e ∈ fs → (∀ j, 1 ≤ j → j ≤ v → ¬ [get_path s j] <+: e.1) →
    e ∈ shiftBackups s fs v
  | 0, fs, e, he, _ => he
  | 1, fs, e, he, _ => he
  | v + 2, fs, e, he, h => by
    rw [shiftBackups]
    exact shiftBackups_mem_untouched s (v + 1) _ e
      (osRename_mem_untouched he (h (v + 1) (by omega) (by omega))
        (h (v + 2) (by omega) (by omega)))
      (fun j hj1 hj2 => h j hj1 (by omega))

lemma shiftBackups_mem_moved (s : String) : ∀ (v : ℕ), ∀ (k c : ℕ) (fs : Fs),
    1 ≤ k → k + 1 ≤ v → ([get_path s k], c) ∈ fs →
    ([get_path s (k + 1)], c) ∈ shiftBackups s fs v := by
  intro v
  induction v using Nat.strong_induction_on with
  | _ v ih =>
    intro k c fs hk hkv he
    obtain ⟨w, rfl⟩ : ∃ w, v = w + 2 := ⟨v - 2, by omega⟩
    rw [shiftBackups]
    by_cases hkw : k = w + 1
    · subst hkw
      refine shiftBackups_mem_untouched s (w + 1) _ _ (osRename_mem_moved he) ?_
      intro j hj1 hj2 hpre
      have := get_path_inj (singleton_prefix_cons hpre)
      omega
    · have h1 : ¬ [get_path s (w + 1)] <+: [get_path s k] := fun hpre => by
        have := get_path_inj (singleton_prefix_cons hpre)
        omega
      have h2 : ¬ [get_path s (w + 2)] <+: [get_path s k] := fun hpre => by
        have := get_path_inj (singleton_prefix_cons hpre)
        omega
      exact ih (w + 1) (by omega) k c _ hk (by omega) (osRename_mem_untouched he h1 h2)

lemma findFreeFrom_some_spec {fs : Fs} {s : String} : ∀ {fuel k e : ℕ},
    findFreeFrom fs s fuel k = some e →
    k ≤ e ∧ pathExists fs [get_path s e] = false ∧
      ∀ j, k ≤ j → j < e → pathExists fs [get_path s j] = true := by
  intro fuel
  induction fuel with
  | zero =>
    intro k e h
    simp [findFreeFrom] at h
  | succ fuel ih =>
    intro k e h
    rw [findFreeFrom] at h
    by_cases hp : pathExists fs [get_path s k] = true
    · rw [if_pos hp] at h
      obtain ⟨h1, h2, h3⟩ := ih h
      refine ⟨by omega, h2, fun j hj1 hj2 => ?_⟩
      rcases Nat.eq_or_lt_of_le hj1 with rfl | hlt
      · exact hp
      · exact h3 j (by omega) hj2
    · rw [if_neg hp] at h
      obtain rfl := Option.some.inj h
      exact ⟨le_refl _, by simpa using hp, fun j hj1 hj2 => absurd hj2 (by omega)⟩

lemma findFreeFrom_none_spec {fs : Fs} {s : String} : ∀ {fuel k : ℕ},
    findFreeFrom fs s fuel k = none →
    ∀ j, k ≤ j → j < k + fuel → pathExists fs [get_path s j] = true := by
  intro fuel
  induction fuel with
  | zero =>
    intro k _ j hj1 hj2
    exact absurd hj2 (by omega)
  | succ fuel ih =>
    intro k h j hj1 hj2
    rw [findFreeFrom] at h
    by_cases hp : pathExists fs [get_path s k] = true
    · rw [if_pos hp] at h
      rcases Nat.eq_or_lt_of_le hj1 with rfl | hlt
      · exact hp
      · exact ih h j hlt (by omega)
    · rw [if_neg hp] at h
      exact absurd h (by simp)

lemma findFree_total (fs : Fs) (s : String) :
    ∃ e, findFreeFrom fs s (fs.length + 1) 1 = some e := by
  rcases hfind : findFreeFrom fs s (fs.length + 1) 1 with _ | e
  · exfalso
    have hall := findFreeFrom_none_spec hfind
    set L : List FsPath := (List.range (fs.length + 1)).map (fun i => [get_path s (i + 1)])
      with hL
    have hnodup : L.Nodup := by
      refine List.Nodup.map ?_ (List.nodup_range _)
      intro i1 i2 hh
      have hg : get_path s (i1 + 1) = get_path s (i2 + 1) := List.singleton_inj.mp hh
      have := get_path_inj hg
      omega
    have hsubset : ∀ p ∈ L, p ∈ fs.map Prod.fst := by
      intro p hp
      rw [hL, List.mem_map] at hp
      obtain ⟨i, hi, rfl⟩ := hp
      rw [List.mem_range] at hi
      have hex := hall (i + 1) (by omega) (by omega)
      obtain ⟨w, hw, hw1⟩ := pathExists_iff.mp hex
      rw [List.mem_map]
      exact ⟨w, hw, hw1⟩
    have h1 : L.toFinset.card = L.length := List.toFinset_card_of_nodup hnodup
    have h2 : L.toFinset ⊆ (fs.map Prod.fst).toFinset := by
      intro x hx
      rw [List.mem_toFinset] at hx ⊢
      exact hsubset x hx
    have h3 := Finset.card_le_card h2
    have h4 : (fs.map Prod.fst).toFinset.card ≤ (fs.map Prod.fst).length :=
      List.toFinset_card_le _
    have h5 : L.length = fs.length + 1 := by
      rw [hL]
      simp
    rw [h1, h5] at h3
    rw [List.length_map] at h4
    omega
  · exact ⟨e, rfl⟩

lemma noPref_of_not_exists {fs : Fs} {x : String}
    (hwf : prefixClosed fs) (hnx : pathExists fs [x] = false) : noPref fs x := by
  intro e he hpre
  rcases singleton_prefix_iff.mp hpre with ⟨t, ht⟩
  have hmem : [x] ∈ e.1.inits := by
    rw [List.mem_inits, ht]
    exact ⟨t, rfl⟩
  obtain ⟨c, hc, hc1⟩ := hwf e he [x] hmem (by simp)
  have hx : pathExists fs [x] = true := pathExists_iff.mpr ⟨c, hc, hc1⟩
  rw [hnx] at hx
  exact Bool.false_ne_true hx

/-- Claim C6 counterexample: for the multi-component evaluation-input archive
path `d/f.inp`, `rename_existing` does NOT rename the existing target path to
a numeric suffix — it renames the FIRST path component (the directory `d`),
so afterwards neither `d/f.inp_1` nor `d/f.inp` exists; the tree moved to
`d_1/`. -/
theorem rename_target_path_counterexample :
    rename_existing [(["d"], 0), (["d", "f.inp"], 1)] ["d", "f.inp"] =
      [(["d_1"], 0), (["d_1", "f.inp"], 1)] ∧
    pathExists (rename_existing [(["d"], 0), (["d", "f.inp"], 1)] ["d", "f.inp"])
      ["d", "f.inp_1"] = false ∧
    pathExists (rename_existing [(["d"], 0), (["d", "f.inp"], 1)] ["d", "f.inp"])
      ["d", "f.inp"] = false := by
  refine ⟨by decide, by decide, by decide⟩

/-- Claim C6 as amended: if the target path exists, `rename_existing` renames
the target's FIRST path component to the first available numeric suffix,
shifting prior numbered backups up by one, and no file content is ever lost.
For a single-component target `[s]` (the report and trajectory paths) this
renames the target itself: afterwards `[s]` is free, the node stored at `[s]`
now sits at `[s_1]`, each backup `[s_k]` with `k` below the first free suffix
moved to `[s_(k+1)]`, and the multiset of stored contents is unchanged.
Writing twice to the same report path yields backups `_1`, `_2` with the
original's content preserved (final two conjuncts). -/
theorem rename_existing_rotation (fs : Fs) (s : String)
    (hwf : prefixClosed fs) (hex : pathExists fs [s] = true) :
    (∃ e, findFreeFrom fs s (fs.length + 1) 1 = some e ∧ 1 ≤ e ∧
      pathExists fs [get_path s e] = false ∧
      (∀ j, 1 ≤ j → j < e → pathExists fs [get_path s j] = true) ∧
      (rename_existing fs [s]).map Prod.snd = fs.map Prod.snd ∧
      pathExists (rename_existing fs [s]) [s] = false ∧
      (∀ c, ([s], c) ∈ fs → ([get_path s 1], c) ∈ rename_existing fs [s]) ∧
      (∀ k c, 1 ≤ k → k < e → ([get_path s k], c) ∈ fs →
        ([get_path s (k + 1)], c) ∈ rename_existing fs [s])) ∧
    rename_existing [(["r.md"], 0)] ["r.md"] = [(["r.md_1"], 0)] ∧
    rename_existing [(["r.md"], 1), (["r.md_1"], 0)] ["r.md"] =
      [(["r.md_1"], 1), (["r.md_2"], 0)] := by
  refine ⟨?_, by decide, by decide⟩
  obtain ⟨e, he⟩ := findFree_total fs s
  obtain ⟨h1e, hfree, hocc⟩ := findFreeFrom_some_spec he
  have hnoe : noPref fs (get_path s e) := noPref_of_not_exists hwf hfree
  have hre : rename_existing fs [s] =
      osRename (shiftBackups s fs e) [s] [get_path s 1] := by
    unfold rename_existing
    rw [if_pos hex]
    simp only [List.headI]
    rw [he]
  have hshiftc : (shiftBackups s fs e).map Prod.snd = fs.map Prod.snd :=
    shiftBackups_contents s e fs hnoe
  have hnop1 : noPref (shiftBackups s fs e) (get_path s 1) := by
    rcases Nat.lt_or_ge e 2 with h2 | h2
    · have he1 : e = 1 := by omega
      subst he1
      exact noPref_of_not_exists hwf hfree
    · exact shiftBackups_noPref_one s e fs h2
  refine ⟨e, he, h1e, hfree, hocc, ?_, ?_, ?_, ?_⟩
  · rw [hre, osRename_contents _ _ _ hnop1, hshiftc]
  · rw [hre]
    refine Bool.eq_false_iff.mpr ?_
    intro hcon
    obtain ⟨w, hw, hw1⟩ := pathExists_iff.mp hcon
    rcases osRename_mem_cases hw with ⟨a, _, _, rfl⟩ | ⟨_, hs, _⟩
    · exact get_path_ne_base s 1 (List.cons.inj hw1).1
    · exact hs (hw1 ▸ List.prefix_refl [s])
  · intro c hc
    rw [hre]
    have hpass : ([s], c) ∈ shiftBackups s fs e := by
      refine shiftBackups_mem_untouched s e fs ([s], c) hc ?_
      intro j hj1 hj2 hpre
      exact get_path_ne_base s j (singleton_prefix_cons hpre)
    exact osRename_mem_moved hpass
  · intro k c hk1 hke hc
    rw [hre]
    have hmov : ([get_path s (k + 1)], c) ∈ shiftBackups s fs e :=
      shiftBackups_mem_moved s e k c fs hk1 (by omega) hc
    refine osRename_mem_untouched hmov ?_ ?_
    · intro hpre
      exact get_path_ne_base s (k + 1) (singleton_prefix_cons hpre).symm
    · intro hpre
      have := get_path_inj (singleton_prefix_cons hpre)
      omega

/-- Witness for C6: the rotation theorem applied to the concrete filesystem
holding the report `r.md` (content 0) and one backup `r.md_1` (content 7). -/
theorem rename_existing_rotation_witness :
    prefixClosed [(["r.md"], 0), (["r.md_1"], 7)] ∧
    pathExists [(["r.md"], 0), (["r.md_1"], 7)] ["r.md"] = true ∧
    (∃ e, findFreeFrom [(["r.md"], 0), (["r.md_1"], 7)] "r.md" 3 1 = some e ∧ 1 ≤ e ∧
      pathExists [(["r.md"], 0), (["r.md_1"], 7)] [get_path "r.md" e] = false ∧
      (∀ j, 1 ≤ j → j < e →
        pathExists [(["r.md"], 0), (["r.md_1"], 7)] [get_path "r.md" j] = true) ∧
      (rename_existing [(["r.md"], 0), (["r.md_1"], 7)] ["r.md"]).map Prod.snd =
        ([(["r.md"], 0), (["r.md_1"], 7)] : Fs).map Prod.snd ∧
      pathExists (rename_existing [(["r.md"], 0), (["r.md_1"], 7)] ["r.md"])
        ["r.md"] = false ∧
      (∀ c, (["r.md"], c) ∈ ([(["r.md"], 0), (["r.md_1"], 7)] : Fs) →
        ([get_path "r.md" 1], c) ∈
          rename_existing [(["r.md"], 0), (["r.md_1"], 7)] ["r.md"]) ∧
      (∀ k c, 1 ≤ k → k < e →
        ([get_path "r.md" k], c) ∈ ([(["r.md"], 0), (["r.md_1"], 7)] : Fs) →
        ([get_path "r.md" (k + 1)], c) ∈
          rename_existing [(["r.md"], 0), (["r.md_1"], 7)] ["r.md"])) :=
  ⟨by unfold prefixClosed; decide, by decide,
    (rename_existing_rotation [(["r.md"], 0), (["r.md_1"], 7)] "r.md"
      (by unfold prefixClosed; decide) (by decide)).1⟩

/-- Claim C7 counterexample: with the report and ten numbered backups
present, the rotation still succeeds — the search scans past all ten
occupied suffixes, finds suffix 11 and rotates without losing any content;
the code has no `OutputPathExhausted` failure: its search loop is unbounded
and `rename_existing` has no error outcome at all. -/
theorem rename_unbounded_search_counterexample :
    backupsTen.length = 11 ∧
    (∀ j, 1 ≤ j → j ≤ 10 → pathExists backupsTen [get_path "r" j] = true) ∧
    findFreeFrom backupsTen "r" (backupsTen.length + 1) 1 = some 11 ∧
    (rename_existing backupsTen ["r"]).map Prod.snd = backupsTen.map Prod.snd ∧
    pathExists (rename_existing backupsTen ["r"]) [get_path "r" 11] = true := by
  refine ⟨rfl, by decide, by decide, by decide, by decide⟩

/-- Claim C7 as amended: the backup-rotation search is an unbounded upward
scan from suffix 1; on a finite filesystem it always terminates, returning
the FIRST free numeric suffix (within at most `fs.length + 1` probes, the
fuel `rename_existing` passes), so the rotation never fails — there is no
`OutputPathExhausted` error path — and nothing is overwritten. -/
theorem findFree_always_succeeds (fs : Fs) (s : String) :
    ∃ e, findFreeFrom fs s (fs.length + 1) 1 = some e ∧ 1 ≤ e ∧
      pathExists fs [get_path s e] = false ∧
      ∀ j, 1 ≤ j → j < e → pathExists fs [get_path s j] = true := by
  obtain ⟨e, he⟩ := findFree_total fs s
  obtain ⟨h1, h2, h3⟩ := findFreeFrom_some_spec he
  exact ⟨e, he, h1, h2, h3⟩

end Chemopt
